import Mathlib

/-!
Shallow embedding of the character-inclusion abstract domain of the
`cwe_checker` string analysis, together with the per-program-point state
container, and proofs of the specified properties.

Sources embedded:
* `src/cwe_checker_lib/src/abstract_domain/character_inclusion.rs`
* `src/cwe_checker_lib/src/analysis/abstract_string/state.rs`

Modelling conventions:
* Rust `HashSet<char>` is modelled as `Finset Char` (unordered set of chars).
* Rust `HashMap<AbstractIdentifier, T>` is modelled as an association list
  keyed by `Nat` (the `AbstractIdentifier` type is opaque to this analysis;
  only its decidable equality is used).
* A Rust `panic!` is modelled by returning `none`; functions that can panic
  are `Option`-valued, functions that cannot are plain.
-/

/-- Rust enum `CharacterSet` from `character_inclusion.rs`:
either `Top` (the whole alphabet) or a concrete set of characters. -/
inductive CharacterSet where
  | Top : CharacterSet
  | Value : Finset Char → CharacterSet
deriving DecidableEq

namespace CharacterSet

/-- `CharacterSet::is_top`: check if the value is Top. -/
def is_top : CharacterSet → Bool
  | Top => true
  | Value _ => false

/-- `CharacterSet::unwrap_value`: unwraps the set from the `Value` variant;
panics (modelled by `none`) on `Top`. -/
def unwrap_value : CharacterSet → Option (Finset Char)
  | Value v => some v
  | Top => none

/-- `CharacterSet::intersection`: panics (modelled by `none`) if either
operand is Top; otherwise the standard set intersection. -/
def intersection : CharacterSet → CharacterSet → Option CharacterSet
  | Value s, Value t => some (Value (s ∩ t))
  | _, _ => none

/-- `CharacterSet::union`: if either operand is Top the union is Top,
otherwise the standard set union. Total. -/
def union : CharacterSet → CharacterSet → CharacterSet
  | Top, _ => Top
  | _, Top => Top
  | Value s, Value t => Value (s ∪ t)

/-- `impl HasTop for CharacterSet`: return a Top value (ignores `self`). -/
def top (_ : CharacterSet) : CharacterSet := Top

end CharacterSet

/-- Rust enum `CharacterInclusionDomain`: `Top`, or a pair of a certainly
contained and a possibly contained character set. -/
inductive CharacterInclusionDomain where
  | Top : CharacterInclusionDomain
  | Value : CharacterSet × CharacterSet → CharacterInclusionDomain
deriving DecidableEq

namespace CharacterInclusionDomain

/-- `CharacterInclusionDomain::is_top`: check if the value is Top. -/
def is_top : CharacterInclusionDomain → Bool
  | Top => true
  | Value _ => false

/-- `CharacterInclusionDomain::unwrap_value`: unwraps the pair of character
sets from the `Value` variant; panics (modelled by `none`) on `Top`. -/
def unwrap_value : CharacterInclusionDomain → Option (CharacterSet × CharacterSet)
  | Value v => some v
  | Top => none

/-- `AbstractDomain::merge` for `CharacterInclusionDomain`: Top if either
side is Top, else the intersection of the certain sets paired with the
union of the possible sets. The inner `CharacterSet::intersection` can
panic, hence the result is `Option`-valued. -/
def merge (a b : CharacterInclusionDomain) : Option CharacterInclusionDomain :=
  if a.is_top || b.is_top then some Top
  else
    match a.unwrap_value, b.unwrap_value with
    | some (self_certain, self_possible), some (other_certain, other_possible) =>
        (self_certain.intersection other_certain).map
          (fun i => Value (i, self_possible.union other_possible))
    | _, _ => none

/-- `DomainInsertion::insert_string_domain` for `CharacterInclusionDomain`:
models string concatenation; union on both sets when both are values,
`(certain, Top)` when the inserted domain is Top, Top when `self` is Top. -/
def insert_string_domain (a b : CharacterInclusionDomain) : CharacterInclusionDomain :=
  match a with
  | Value (self_certain, self_possible) =>
      match b with
      | Value (other_certain, other_possible) =>
          Value (self_certain.union other_certain, self_possible.union other_possible)
      | Top => Value (self_certain, CharacterSet.Top)
  | Top => Top

/-- `impl From<String> for CharacterInclusionDomain`: collect the unique
characters of the string into both the certain and the possible set. -/
def from_string (s : String) : CharacterInclusionDomain :=
  let characters : Finset Char := s.toList.toFinset
  Value (CharacterSet.Value characters, CharacterSet.Value characters)

/-- `impl HasTop for CharacterInclusionDomain`: return a Top value
(ignores `self`). -/
def top (_ : CharacterInclusionDomain) : CharacterInclusionDomain := Top

/-- A `CharacterInclusionDomain` whose certain component (if any) is a
concrete set, i.e. not `CharacterSet::Top`. On such inputs `merge` cannot
reach the panicking `CharacterSet::intersection`. -/
def certain_ok : CharacterInclusionDomain → Bool
  | Value (CharacterSet.Top, _) => false
  | _ => true

end CharacterInclusionDomain

/-- Rust struct `State<T>` from `state.rs`: a map from abstract identifiers
to domain values. The repository instantiates the string analysis at
`CharacterInclusionDomain`; the map is modelled as an association list
whose keys are `Nat` (standing in for the opaque `AbstractIdentifier`). -/
structure State where
  strings_tracked : List (Nat × CharacterInclusionDomain)
deriving DecidableEq

/-- Lookup in the association list modelling the `HashMap`: the value of
the first entry with the given key, `none` if the key is absent. -/
def lookupId (k : Nat) : List (Nat × CharacterInclusionDomain) → Option CharacterInclusionDomain
  | [] => none
  | (k2, v) :: rest => if k = k2 then some v else lookupId k rest

namespace State

/-- Lookup of a tracked identifier in a state. -/
def lookup (s : State) (k : Nat) : Option CharacterInclusionDomain :=
  lookupId k s.strings_tracked

/-- Modelled from the spec: the body of `State::is_top` in `state.rs` is
an unimplemented stub, so this follows the specification text: true iff the
map is empty (no location is constrained below Top). -/
def is_top (s : State) : Bool :=
  s.strings_tracked.isEmpty

/-- Modelled from the spec: the body of `State::merge` in `state.rs` is an
unimplemented stub, so this follows the specification text: pointwise merge
over the union of both maps' keys; a key present in only one map merges with
the implicit Top, giving Top, which is dropped from the result; a key present
in both maps merges via the domain's `merge`. Walks the entries of the first
map; `none` propagates a panic of the inner domain merge. -/
def mergeEntries (s2 : List (Nat × CharacterInclusionDomain)) :
    List (Nat × CharacterInclusionDomain) → Option (List (Nat × CharacterInclusionDomain))
  | [] => some []
  | (k, v) :: rest =>
      match mergeEntries s2 rest with
      | none => none
      | some tail =>
          match lookupId k s2 with
          | some w => (v.merge w).map (fun u => (k, u) :: tail)
          | none => some tail

/-- Modelled from the spec: `State::merge`, see `State.mergeEntries`. -/
def merge (s1 s2 : State) : Option State :=
  (mergeEntries s2.strings_tracked s1.strings_tracked).map State.mk

end State

/-- The `CharacterInclusionDomain` values reachable in the analysis:
`Top` (the default value, produced by `HasTop::top`), values built from
string literals by `From<String>`, and everything obtainable from reachable
values by `merge` and `insert_string_domain`. -/
inductive Reachable : CharacterInclusionDomain → Prop where
  | top : Reachable CharacterInclusionDomain.Top
  | of_string (s : String) : Reachable (CharacterInclusionDomain.from_string s)
  | merge_step (a b c : CharacterInclusionDomain) : Reachable a → Reachable b →
      CharacterInclusionDomain.merge a b = some c → Reachable c
  | insert_step (a b : CharacterInclusionDomain) : Reachable a → Reachable b →
      Reachable (a.insert_string_domain b)

/-- The character-set union of the source is commutative. -/
lemma CharacterSet.union_comm (a b : CharacterSet) : a.union b = b.union a := by
  cases a <;> cases b <;> simp [CharacterSet.union, Finset.union_comm]

/-- The character-set intersection of the source is commutative
(both sides panic on the same inputs). -/
lemma CharacterSet.intersection_comm (a b : CharacterSet) :
    a.intersection b = b.intersection a := by
  cases a <;> cases b <;> simp [CharacterSet.intersection, Finset.inter_comm]

/-- Claim C1: `merge` is a valid join: the result is Top iff either argument
is Top; on two concrete values whose certain sets are concrete, the result
pairs the intersection of the certain sets with the union of the possible
sets. -/
theorem ci_merge_join_spec (a b : CharacterInclusionDomain) :
    (CharacterInclusionDomain.merge a b = some CharacterInclusionDomain.Top ↔
      a.is_top = true ∨ b.is_top = true) ∧
    (∀ s1 p1 s2 p2, a = CharacterInclusionDomain.Value (CharacterSet.Value s1, p1) →
      b = CharacterInclusionDomain.Value (CharacterSet.Value s2, p2) →
      CharacterInclusionDomain.merge a b =
        some (CharacterInclusionDomain.Value
          (CharacterSet.Value (s1 ∩ s2), p1.union p2))) := by
  constructor
  · constructor
    · intro h
      cases a with
      | Top => exact Or.inl rfl
      | Value v1 =>
        cases b with
        | Top => exact Or.inr rfl
        | Value v2 =>
          exfalso
          obtain ⟨c1, p1⟩ := v1
          obtain ⟨c2, p2⟩ := v2
          simp only [CharacterInclusionDomain.merge, CharacterInclusionDomain.is_top,
            CharacterInclusionDomain.unwrap_value, Bool.or_self, Bool.false_eq_true,
            if_false] at h
          cases hci : c1.intersection c2 with
          | none => rw [hci] at h; simp at h
          | some i => rw [hci] at h; simp at h
    · intro h
      cases h with
      | inl h =>
        cases a with
        | Top => rfl
        | Value v => simp [CharacterInclusionDomain.is_top] at h
      | inr h =>
        cases b with
        | Top =>
          cases a <;>
            simp [CharacterInclusionDomain.merge, CharacterInclusionDomain.is_top]
        | Value v => simp [CharacterInclusionDomain.is_top] at h
  · intro s1 p1 s2 p2 ha hb
    subst ha; subst hb
    simp [CharacterInclusionDomain.merge, CharacterInclusionDomain.is_top,
      CharacterInclusionDomain.unwrap_value, CharacterSet.intersection]

/-- Claim C1 witness: the join of the literal domains of "ab" and "bc". -/
theorem ci_merge_join_spec_witness :
    CharacterInclusionDomain.merge
      (CharacterInclusionDomain.Value
        (CharacterSet.Value {'a', 'b'}, CharacterSet.Value {'a', 'b'}))
      (CharacterInclusionDomain.Value
        (CharacterSet.Value {'b', 'c'}, CharacterSet.Value {'b', 'c'})) =
    some (CharacterInclusionDomain.Value
      (CharacterSet.Value ({'a', 'b'} ∩ {'b', 'c'}),
       (CharacterSet.Value {'a', 'b'}).union (CharacterSet.Value {'b', 'c'}))) :=
  (ci_merge_join_spec _ _).2 _ _ _ _ rfl rfl

/-- Claim C2: `insert_string_domain` (string concatenation) returns Top when
`self` is Top, keeps the certain set and tops the possible set when the
inserted domain is Top, and takes unions on both components when both sides
are concrete. -/
theorem ci_insert_spec (a b : CharacterInclusionDomain) :
    (a = CharacterInclusionDomain.Top →
      a.insert_string_domain b = CharacterInclusionDomain.Top) ∧
    (∀ c p, a = CharacterInclusionDomain.Value (c, p) → b = CharacterInclusionDomain.Top →
      a.insert_string_domain b = CharacterInclusionDomain.Value (c, CharacterSet.Top)) ∧
    (∀ c1 p1 c2 p2, a = CharacterInclusionDomain.Value (c1, p1) →
      b = CharacterInclusionDomain.Value (c2, p2) →
      a.insert_string_domain b =
        CharacterInclusionDomain.Value (c1.union c2, p1.union p2)) := by
  refine ⟨?_, ?_, ?_⟩
  · intro h; subst h; rfl
  · intro c p ha hb; subst ha; subst hb; rfl
  · intro c1 p1 c2 p2 ha hb; subst ha; subst hb; rfl

/-- Claim C2 witness: concatenation behaviour on concrete inputs. -/
theorem ci_insert_spec_witness :
    (CharacterInclusionDomain.Value
        (CharacterSet.Value {'a'}, CharacterSet.Value {'a'})).insert_string_domain
      (CharacterInclusionDomain.Value
        (CharacterSet.Value {'b'}, CharacterSet.Value {'b'})) =
    CharacterInclusionDomain.Value
      ((CharacterSet.Value {'a'}).union (CharacterSet.Value {'b'}),
       (CharacterSet.Value {'a'}).union (CharacterSet.Value {'b'})) :=
  (ci_insert_spec _ _).2.2 _ _ _ _ rfl rfl

/-- Claim C5: `merge` is commutative on concrete (non-Top) domain values. -/
theorem ci_merge_comm (a b : CharacterInclusionDomain)
    (ha : a.is_top = false) (hb : b.is_top = false) :
    CharacterInclusionDomain.merge a b = CharacterInclusionDomain.merge b a := by
  cases a with
  | Top => simp [CharacterInclusionDomain.is_top] at ha
  | Value v1 =>
    cases b with
    | Top => simp [CharacterInclusionDomain.is_top] at hb
    | Value v2 =>
      obtain ⟨c1, p1⟩ := v1
      obtain ⟨c2, p2⟩ := v2
      simp [CharacterInclusionDomain.merge, CharacterInclusionDomain.is_top,
        CharacterInclusionDomain.unwrap_value, CharacterSet.intersection_comm c1 c2,
        CharacterSet.union_comm p1 p2]

/-- Claim C5 witness: commutativity at two concrete literal domains. -/
theorem ci_merge_comm_witness :
    CharacterInclusionDomain.merge
      (CharacterInclusionDomain.from_string "ab")
      (CharacterInclusionDomain.from_string "bc") =
    CharacterInclusionDomain.merge
      (CharacterInclusionDomain.from_string "bc")
      (CharacterInclusionDomain.from_string "ab") :=
  ci_merge_comm _ _ rfl rfl

/-- Claim C6 counterexample: for the domain value whose certain set is
`CharacterSet.Top` (a representable `Value` variant), `merge(a,a)` does not
return `a`: the code panics inside `CharacterSet::intersection` (modelled by
`none`). -/
theorem ci_merge_idem_cex :
    CharacterInclusionDomain.merge
      (CharacterInclusionDomain.Value (CharacterSet.Top, CharacterSet.Top))
      (CharacterInclusionDomain.Value (CharacterSet.Top, CharacterSet.Top)) ≠
    some (CharacterInclusionDomain.Value (CharacterSet.Top, CharacterSet.Top)) := by
  decide

/-- Claim C6 (amended): `merge(a,a) = a` for every domain value `a` that is
Top or whose certain set is not `CharacterSet.Top` — in particular for every
value reachable in the analysis. -/
theorem ci_merge_idem (a : CharacterInclusionDomain) (h : a.certain_ok = true) :
    CharacterInclusionDomain.merge a a = some a := by
  cases a with
  | Top => rfl
  | Value v =>
    obtain ⟨c, p⟩ := v
    cases c with
    | Top => simp [CharacterInclusionDomain.certain_ok] at h
    | Value s =>
      cases p with
      | Top =>
        simp [CharacterInclusionDomain.merge, CharacterInclusionDomain.is_top,
          CharacterInclusionDomain.unwrap_value, CharacterSet.intersection,
          CharacterSet.union, Finset.inter_self]
      | Value t =>
        simp [CharacterInclusionDomain.merge, CharacterInclusionDomain.is_top,
          CharacterInclusionDomain.unwrap_value, CharacterSet.intersection,
          CharacterSet.union, Finset.inter_self, Finset.union_self]

/-- Claim C6 witness: idempotence at the literal domain of "ab". -/
theorem ci_merge_idem_witness :
    CharacterInclusionDomain.merge
      (CharacterInclusionDomain.from_string "ab")
      (CharacterInclusionDomain.from_string "ab") =
    some (CharacterInclusionDomain.from_string "ab") :=
  ci_merge_idem _ rfl

/-- Claim C7: constructing a domain from a string literal puts the unique
characters of the string into both the certain and the possible set. -/
theorem ci_from_string_spec (s : String) :
    ∃ cs : Finset Char,
      CharacterInclusionDomain.from_string s =
        CharacterInclusionDomain.Value (CharacterSet.Value cs, CharacterSet.Value cs) ∧
      ∀ c : Char, c ∈ cs ↔ c ∈ s.toList := by
  refine ⟨s.toList.toFinset, rfl, ?_⟩
  intro c
  exact List.mem_toFinset

/-- Claim C8: unwrapping a Top variant panics (modelled by `none`) for both
the domain and the character set; `CharacterSet::intersection` panics exactly
when an operand is Top and otherwise returns the standard set
intersection. -/
theorem cs_panic_spec :
    CharacterInclusionDomain.unwrap_value CharacterInclusionDomain.Top = none ∧
    CharacterSet.unwrap_value CharacterSet.Top = none ∧
    (∀ a b : CharacterSet,
      a.intersection b = none ↔ a.is_top = true ∨ b.is_top = true) ∧
    (∀ s t : Finset Char,
      (CharacterSet.Value s).intersection (CharacterSet.Value t) =
        some (CharacterSet.Value (s ∩ t)) ∧
      ∀ c : Char, c ∈ s ∩ t ↔ c ∈ s ∧ c ∈ t) := by
  refine ⟨rfl, rfl, ?_, ?_⟩
  · intro a b
    cases a <;> cases b <;> simp [CharacterSet.intersection, CharacterSet.is_top]
  · intro s t
    exact ⟨rfl, fun c => Finset.mem_inter⟩

/-- Pointwise characterisation of `State.mergeEntries`: the result maps a
key to the domain merge of the two values when the key is in both lists,
and drops the key when it is missing from either list. -/
lemma mergeEntries_lookup (s2 : List (Nat × CharacterInclusionDomain)) :
    ∀ (l r : List (Nat × CharacterInclusionDomain)),
    State.mergeEntries s2 l = some r → ∀ k : Nat,
    (∀ v w, lookupId k l = some v → lookupId k s2 = some w →
      ∃ u, CharacterInclusionDomain.merge v w = some u ∧ lookupId k r = some u) ∧
    ((lookupId k l = none ∨ lookupId k s2 = none) → lookupId k r = none) := by
  intro l
  induction l with
  | nil =>
    intro r h k
    simp only [State.mergeEntries, Option.some.injEq] at h
    subst h
    constructor
    · intro v w hv _
      simp [lookupId] at hv
    · intro _
      rfl
  | cons hd rest ih =>
    obtain ⟨k1, v1⟩ := hd
    intro r h k
    rw [State.mergeEntries] at h
    cases hrest : State.mergeEntries s2 rest with
    | none =>
      rw [hrest] at h
      exact absurd h (by simp)
    | some tail =>
      simp only [hrest] at h
      have ihk := ih tail hrest k
      cases hl1 : lookupId k1 s2 with
      | some w1 =>
        simp only [hl1] at h
        cases hm : v1.merge w1 with
        | none =>
          simp only [hm] at h
          simp at h
        | some u1 =>
          simp only [hm, Option.map_some', Option.some.injEq] at h
          subst h
          by_cases hk : k = k1
          · subst hk
            constructor
            · intro v w hv hw
              simp [lookupId] at hv
              rw [hl1] at hw
              injection hw with hw
              refine ⟨u1, ?_, ?_⟩
              · rw [← hv, ← hw]
                exact hm
              · simp [lookupId]
            · intro hor
              cases hor with
              | inl h1 => simp [lookupId] at h1
              | inr h2 => rw [hl1] at h2; exact absurd h2 (by simp)
          · constructor
            · intro v w hv hw
              simp only [lookupId, if_neg hk] at hv ⊢
              exact ihk.1 v w hv hw
            · intro hor
              simp only [lookupId, if_neg hk]
              apply ihk.2
              cases hor with
              | inl h1 =>
                left
                simpa [lookupId, if_neg hk] using h1
              | inr h2 => exact Or.inr h2
      | none =>
        simp only [hl1] at h
        injection h with h
        subst h
        by_cases hk : k = k1
        · subst hk
          constructor
          · intro v w _ hw
            rw [hl1] at hw
            exact absurd hw (by simp)
          · intro _
            exact ihk.2 (Or.inr hl1)
        · constructor
          · intro v w hv hw
            simp only [lookupId, if_neg hk] at hv
            exact ihk.1 v w hv hw
          · intro hor
            apply ihk.2
            cases hor with
            | inl h1 =>
              left
              simpa [lookupId, if_neg hk] using h1
            | inr h2 => exact Or.inr h2

/-- Claim C3: `State::merge` (modelled from the spec, see `State.mergeEntries`)
is the pointwise merge over the union of both key sets: a key present in both
maps is sent to the domain merge of the two values, and a key missing from
either map is absent from the result. -/
theorem state_merge_spec (s1 s2 m : State) (h : State.merge s1 s2 = some m) (k : Nat) :
    (∀ v w, s1.lookup k = some v → s2.lookup k = some w →
      ∃ u, CharacterInclusionDomain.merge v w = some u ∧ m.lookup k = some u) ∧
    ((s1.lookup k = none ∨ s2.lookup k = none) → m.lookup k = none) := by
  unfold State.merge at h
  cases hme : State.mergeEntries s2.strings_tracked s1.strings_tracked with
  | none =>
    rw [hme] at h
    exact absurd h (by simp)
  | some r =>
    rw [hme] at h
    simp only [Option.map_some', Option.some.injEq] at h
    subst h
    exact mergeEntries_lookup s2.strings_tracked s1.strings_tracked r hme k

/-- Claim C3 witness: merging two concrete one-entry states merges the
shared key through the domain merge. -/
theorem state_merge_spec_witness :
    ∃ u, CharacterInclusionDomain.merge
        (CharacterInclusionDomain.from_string "ab")
        (CharacterInclusionDomain.from_string "bc") = some u ∧
      State.lookup
        ⟨[(0, CharacterInclusionDomain.Value
            (CharacterSet.Value {'b'}, CharacterSet.Value {'a', 'b', 'c'}))]⟩ 0 = some u :=
  (state_merge_spec
      ⟨[(0, CharacterInclusionDomain.from_string "ab")]⟩
      ⟨[(0, CharacterInclusionDomain.from_string "bc")]⟩
      ⟨[(0, CharacterInclusionDomain.Value
          (CharacterSet.Value {'b'}, CharacterSet.Value {'a', 'b', 'c'}))]⟩
      (by decide) 0).1 _ _ (by decide) (by decide)

/-- Claim C9: `State::is_top` (modelled from the spec) is true exactly when
the underlying map is empty, equivalently when every lookup is unconstrained. -/
theorem state_is_top_spec (s : State) :
    (s.is_top = true ↔ s.strings_tracked = []) ∧
    (s.is_top = true ↔ ∀ k : Nat, s.lookup k = none) := by
  obtain ⟨l⟩ := s
  constructor
  · simp [State.is_top, List.isEmpty_iff]
  · constructor
    · intro h k
      simp only [State.is_top, List.isEmpty_iff] at h
      subst h
      rfl
    · intro h
      cases l with
      | nil => rfl
      | cons hd rest =>
        exfalso
        obtain ⟨k1, v1⟩ := hd
        have hk := h k1
        simp [State.lookup, lookupId] at hk

/-- Claim C9 witness: the empty state is Top, a one-entry state is not. -/
theorem state_is_top_spec_witness :
    State.is_top ⟨[]⟩ = true ∧
    (State.is_top ⟨[(0, CharacterInclusionDomain.from_string "a")]⟩ = true → False) :=
  ⟨(state_is_top_spec ⟨[]⟩).1.mpr rfl,
   fun h => by
     have hk := (state_is_top_spec
       ⟨[(0, CharacterInclusionDomain.from_string "a")]⟩).2.mp h 0
     exact absurd hk (by decide)⟩

/-- A successful lookup only returns values stored in the list. -/
lemma lookupId_mem {k : Nat} {v : CharacterInclusionDomain} :
    ∀ {l : List (Nat × CharacterInclusionDomain)},
    lookupId k l = some v → (k, v) ∈ l := by
  intro l
  induction l with
  | nil => intro h; simp [lookupId] at h
  | cons hd rest ih =>
    obtain ⟨k2, v2⟩ := hd
    intro h
    simp only [lookupId] at h
    by_cases hk : k = k2
    · rw [if_pos hk] at h
      injection h with h
      subst hk; subst h
      exact List.mem_cons_self _ _
    · rw [if_neg hk] at h
      exact List.mem_cons_of_mem _ (ih h)

/-- `merge` succeeds on any two domain values whose certain components are
concrete sets. -/
lemma merge_total (a b : CharacterInclusionDomain)
    (ha : a.certain_ok = true) (hb : b.certain_ok = true) :
    ∃ r, CharacterInclusionDomain.merge a b = some r := by
  cases a with
  | Top => exact ⟨CharacterInclusionDomain.Top, rfl⟩
  | Value v1 =>
    cases b with
    | Top =>
      exact ⟨CharacterInclusionDomain.Top, by
        simp [CharacterInclusionDomain.merge, CharacterInclusionDomain.is_top]⟩
    | Value v2 =>
      obtain ⟨c1, p1⟩ := v1
      obtain ⟨c2, p2⟩ := v2
      cases c1 with
      | Top => simp [CharacterInclusionDomain.certain_ok] at ha
      | Value s1 =>
        cases c2 with
        | Top => simp [CharacterInclusionDomain.certain_ok] at hb
        | Value s2 =>
          refine ⟨CharacterInclusionDomain.Value
            (CharacterSet.Value (s1 ∩ s2), p1.union p2), ?_⟩
          simp [CharacterInclusionDomain.merge, CharacterInclusionDomain.is_top,
            CharacterInclusionDomain.unwrap_value, CharacterSet.intersection]

/-- `State.mergeEntries` succeeds when every stored domain value on both
sides has a concrete certain component. -/
lemma mergeEntries_total (s2 : List (Nat × CharacterInclusionDomain))
    (h2 : ∀ kv ∈ s2, (kv.2).certain_ok = true) :
    ∀ l : List (Nat × CharacterInclusionDomain),
    (∀ kv ∈ l, (kv.2).certain_ok = true) →
    ∃ r, State.mergeEntries s2 l = some r := by
  intro l
  induction l with
  | nil => intro _; exact ⟨[], rfl⟩
  | cons hd rest ih =>
    obtain ⟨k1, v1⟩ := hd
    intro h1
    obtain ⟨tail, htail⟩ := ih (fun kv hkv => h1 kv (List.mem_cons_of_mem _ hkv))
    rw [State.mergeEntries]
    simp only [htail]
    cases hl1 : lookupId k1 s2 with
    | none => exact ⟨tail, rfl⟩
    | some w =>
      have hv1 : v1.certain_ok = true := h1 (k1, v1) (List.mem_cons_self _ _)
      have hw : w.certain_ok = true := h2 (k1, w) (lookupId_mem hl1)
      obtain ⟨u, hu⟩ := merge_total v1 w hv1 hw
      exact ⟨(k1, u) :: tail, by simp [hu]⟩

/-- Claim C4 counterexample: `merge` is not total on every input value of
`CharacterInclusionDomain`: on a `Value` whose certain component is
`CharacterSet.Top` it panics inside `CharacterSet::intersection`
(modelled by `none`). -/
theorem ci_ops_total_cex :
    CharacterInclusionDomain.merge
      (CharacterInclusionDomain.Value (CharacterSet.Top, CharacterSet.Value ∅))
      (CharacterInclusionDomain.Value (CharacterSet.Value ∅, CharacterSet.Value ∅)) =
    none := by
  decide

/-- Claim C4 (amended): `top` and `is_top` are pure total functions on all
inputs; `merge` on `CharacterInclusionDomain` is total (never panics) on all
values whose certain component is concrete, and `State::merge` (modelled from
the spec) is total whenever every stored value on both sides has a concrete
certain component. -/
theorem ci_ops_total :
    (∀ a : CharacterInclusionDomain, a.top = CharacterInclusionDomain.Top) ∧
    (∀ a : CharacterInclusionDomain, a.is_top = true ↔ a = CharacterInclusionDomain.Top) ∧
    (∀ a b : CharacterInclusionDomain, a.certain_ok = true → b.certain_ok = true →
      ∃ r, CharacterInclusionDomain.merge a b = some r) ∧
    (∀ s1 s2 : State,
      (∀ kv ∈ s1.strings_tracked, (kv.2).certain_ok = true) →
      (∀ kv ∈ s2.strings_tracked, (kv.2).certain_ok = true) →
      ∃ m, State.merge s1 s2 = some m) := by
  refine ⟨fun a => rfl, ?_, merge_total, ?_⟩
  · intro a
    cases a <;> simp [CharacterInclusionDomain.is_top]
  · intro s1 s2 h1 h2
    obtain ⟨r, hr⟩ := mergeEntries_total s2.strings_tracked h2 s1.strings_tracked h1
    exact ⟨⟨r⟩, by simp [State.merge, hr]⟩

/-- Claim C4 witness: totality at concrete literal domains and states. -/
theorem ci_ops_total_witness :
    (∃ r, CharacterInclusionDomain.merge
      (CharacterInclusionDomain.from_string "a")
      (CharacterInclusionDomain.from_string "b") = some r) ∧
    (∃ m, State.merge
      ⟨[(0, CharacterInclusionDomain.from_string "a")]⟩
      ⟨[(0, CharacterInclusionDomain.from_string "b")]⟩ = some m) :=
  ⟨ci_ops_total.2.2.1 _ _ rfl rfl,
   ci_ops_total.2.2.2 _ _ (by decide) (by decide)⟩

/-- Every reachable domain value is Top or a `Value` whose certain component
is a concrete character set. -/
lemma reachable_shape (a : CharacterInclusionDomain) (h : Reachable a) :
    a = CharacterInclusionDomain.Top ∨
    ∃ s p, a = CharacterInclusionDomain.Value (CharacterSet.Value s, p) := by
  induction h with
  | top => exact Or.inl rfl
  | of_string s =>
    exact Or.inr ⟨s.toList.toFinset, CharacterSet.Value s.toList.toFinset, rfl⟩
  | merge_step a b c _ _ hm ihA ihB =>
    cases ihA with
    | inl hA =>
      subst hA
      rw [show CharacterInclusionDomain.merge CharacterInclusionDomain.Top b =
        some CharacterInclusionDomain.Top from rfl] at hm
      injection hm with hm
      exact Or.inl hm.symm
    | inr hA =>
      obtain ⟨s1, p1, hA⟩ := hA
      cases ihB with
      | inl hB =>
        subst hA; subst hB
        simp only [CharacterInclusionDomain.merge, CharacterInclusionDomain.is_top,
          Bool.or_true, if_true] at hm
        injection hm with hm
        exact Or.inl hm.symm
      | inr hB =>
        obtain ⟨s2, p2, hB⟩ := hB
        subst hA; subst hB
        simp only [CharacterInclusionDomain.merge, CharacterInclusionDomain.is_top,
          CharacterInclusionDomain.unwrap_value, CharacterSet.intersection,
          Bool.or_self, Bool.false_eq_true, if_false, Option.map_some',
          Option.some.injEq] at hm
        exact Or.inr ⟨s1 ∩ s2, p1.union p2, hm.symm⟩
  | insert_step a b _ _ ihA ihB =>
    cases ihA with
    | inl hA =>
      subst hA
      exact Or.inl rfl
    | inr hA =>
      obtain ⟨s1, p1, hA⟩ := hA
      subst hA
      cases ihB with
      | inl hB =>
        subst hB
        exact Or.inr ⟨s1, CharacterSet.Top, rfl⟩
      | inr hB =>
        obtain ⟨s2, p2, hB⟩ := hB
        subst hB
        exact Or.inr ⟨s1 ∪ s2, p1.union p2, rfl⟩

/-- Claim C10: every reachable `Value` has a concrete (non-Top) certain set,
and consequently `merge` never reaches the panicking intersection on
reachable values. -/
theorem ci_reachable_invariant :
    (∀ a c p, Reachable a → a = CharacterInclusionDomain.Value (c, p) →
      c ≠ CharacterSet.Top) ∧
    (∀ a b, Reachable a → Reachable b →
      ∃ c, CharacterInclusionDomain.merge a b = some c) := by
  constructor
  · intro a c p h heq
    cases reachable_shape a h with
    | inl hTop => rw [hTop] at heq; exact absurd heq (by simp)
    | inr hVal =>
      obtain ⟨s, q, hVal⟩ := hVal
      rw [hVal] at heq
      injection heq with heq
      rw [Prod.mk.injEq] at heq
      obtain ⟨hc, -⟩ := heq
      subst hc
      simp
  · intro a b ha hb
    have hca : a.certain_ok = true := by
      cases reachable_shape a ha with
      | inl h => rw [h]; rfl
      | inr h => obtain ⟨s, p, h⟩ := h; rw [h]; rfl
    have hcb : b.certain_ok = true := by
      cases reachable_shape b hb with
      | inl h => rw [h]; rfl
      | inr h => obtain ⟨s, p, h⟩ := h; rw [h]; rfl
    exact merge_total a b hca hcb

/-- Claim C10 witness: the literal domain of "a" is reachable, its certain
set is concrete, and merging it with Top succeeds. -/
theorem ci_reachable_invariant_witness :
    CharacterSet.Value ({'a'} : Finset Char) ≠ CharacterSet.Top ∧
    ∃ c, CharacterInclusionDomain.merge
      (CharacterInclusionDomain.from_string "a") CharacterInclusionDomain.Top = some c :=
  ⟨ci_reachable_invariant.1 (CharacterInclusionDomain.from_string "a")
      (CharacterSet.Value {'a'}) (CharacterSet.Value {'a'})
      (Reachable.of_string "a") (by decide),
   ci_reachable_invariant.2 _ _ (Reachable.of_string "a") Reachable.top⟩
